import Mathlib

/-!
Verification of the market-stress pipeline (`src/features.py`, `src/scoring.py`,
`src/analysis.py`, `app.py`) in a shallow embedding.

Pandas/NumPy float cells are modelled by `QVal`: a finite rational, `+inf`,
`-inf`, or `NaN`.  Values produced by square roots (standard deviations,
z-scores, Pearson correlations) are modelled as `Option ℝ` (`none` = NaN; such
values are finite reals or NaN, never infinite).  IEEE arithmetic on cells is
modelled explicitly; NaN propagates through every operation.
-/

/-- Model of one pandas float cell: finite value, +infinity, -infinity or NaN. -/
inductive QVal where
  | fin (q : ℚ)
  | pinf
  | ninf
  | nan
  deriving DecidableEq, Repr

namespace QVal

/-- IEEE addition on cells. -/
def add : QVal → QVal → QVal
  | fin a, fin b => fin (a + b)
  | fin _, pinf => pinf
  | fin _, ninf => ninf
  | pinf, fin _ => pinf
  | ninf, fin _ => ninf
  | pinf, pinf => pinf
  | ninf, ninf => ninf
  | pinf, ninf => nan
  | ninf, pinf => nan
  | _, _ => nan

/-- IEEE subtraction on cells. -/
def sub : QVal → QVal → QVal
  | fin a, fin b => fin (a - b)
  | fin _, pinf => ninf
  | fin _, ninf => pinf
  | pinf, fin _ => pinf
  | ninf, fin _ => ninf
  | pinf, ninf => pinf
  | ninf, pinf => ninf
  | pinf, pinf => nan
  | ninf, ninf => nan
  | _, _ => nan

/-- IEEE division on cells (an unsigned zero behaves as +0, as produced by
pandas arithmetic on default data). -/
def div : QVal → QVal → QVal
  | fin a, fin b =>
      if b = 0 then (if a = 0 then nan else if 0 < a then pinf else ninf)
      else fin (a / b)
  | fin _, pinf => fin 0
  | fin _, ninf => fin 0
  | pinf, fin b => if 0 ≤ b then pinf else ninf
  | ninf, fin b => if 0 ≤ b then ninf else pinf
  | pinf, pinf => nan
  | pinf, ninf => nan
  | ninf, pinf => nan
  | ninf, ninf => nan
  | _, _ => nan

/-- Is this cell NaN?  (`pandas.isna`; infinities are not NaN.) -/
def isNan : QVal → Bool
  | nan => true
  | _ => false

end QVal

/-- Finite (non-NaN, non-infinite) values of a cell list, in order.  This is
what `series.replace([inf, -inf], nan).dropna()` keeps when applied after
`dropInf`. -/
def finVals (l : List QVal) : List ℚ :=
  l.foldr (fun v acc => match v with | QVal.fin q => q :: acc | _ => acc) []

/-- Model of `series.replace([np.inf, -np.inf], np.nan)` on one cell. -/
def dropInf : QVal → QVal
  | QVal.pinf => QVal.nan
  | QVal.ninf => QVal.nan
  | v => v

/-- Arithmetic mean of a rational list (`Series.mean` on the non-missing
values; meaningful only for nonempty lists). -/
def qMean (l : List ℚ) : ℚ := l.sum / l.length

/-- Sample variance with `ddof = 1` (the quantity under pandas'
`Series.std`), as an exact rational. -/
def qVar (l : List ℚ) : ℚ :=
  (l.map (fun x => (x - qMean l) ^ 2)).sum / ((l.length : ℚ) - 1)

example : qMean [1, 3] = 2 := by norm_num [qMean]
example : qVar [1, 3] = 2 := by norm_num [qVar, qMean]
example : qVar [0, 0] = 0 := by norm_num [qVar, qMean]
example : Real.sqrt 0 = 0 := by simp
example : finVals [QVal.nan, QVal.fin 2, QVal.pinf] = [2] := by rfl

/-! ## Scoring engine: `zscore` (`src/scoring.py`) -/

/-- Output cells of `zscore` and other √-derived quantities: a finite real or
NaN (`none`); infinities cannot arise there. -/
abbrev RVal := Option ℝ

/-- Model of `zscore` from `src/scoring.py`: replace ±inf by NaN, take mean
and sample std of the remaining finite values, return an all-zero series when
σ is NaN or 0, else standardize elementwise (NaN cells stay NaN).  σ = √(qVar)
is NaN exactly when fewer than two finite values remain, and σ = 0 exactly
when the sample variance is 0, so the guard `np.isnan(sigma) or sigma == 0` is
expressed on the count and the variance. -/
noncomputable def zscore (series : List QVal) : List RVal :=
  let s := series.map dropInf
  let fv := finVals s
  if fv.length ≤ 1 ∨ qVar fv = 0 then
    List.replicate series.length (some 0)
  else
    s.map (fun v =>
      match v with
      | QVal.fin q => some (((q : ℝ) - (qMean fv : ℝ)) / Real.sqrt (qVar fv))
      | _ => none)

lemma dropInf_fin (q : ℚ) : dropInf (QVal.fin q) = QVal.fin q := rfl

lemma map_dropInf_map_fin (xs : List ℚ) :
    (xs.map QVal.fin).map dropInf = xs.map QVal.fin := by
  induction xs with
  | nil => rfl
  | cons a l ih => simp [ih, dropInf_fin]

lemma finVals_map_fin (xs : List ℚ) : finVals (xs.map QVal.fin) = xs := by
  induction xs with
  | nil => rfl
  | cons a l ih => simpa [finVals] using ih

/-- Sample-statistics helpers used to state mean/std properties of real lists
(the same formulas as `qMean`, `qVar`, with `ddof = 1`). -/
noncomputable def rMean (l : List ℝ) : ℝ := l.sum / l.length

/-- Sample variance (`ddof = 1`) of a real list. -/
noncomputable def rVar (l : List ℝ) : ℝ :=
  (l.map (fun x => (x - rMean l) ^ 2)).sum / ((l.length : ℝ) - 1)

/-- Sample standard deviation (`ddof = 1`) of a real list. -/
noncomputable def rStd (l : List ℝ) : ℝ := Real.sqrt (rVar l)

lemma qVar_nonneg (l : List ℚ) (h2 : 2 ≤ l.length) : 0 ≤ qVar l := by
  unfold qVar
  apply div_nonneg
  · exact List.sum_nonneg (by
      intro x hx
      rcases List.mem_map.1 hx with ⟨a, _, rfl⟩
      positivity)
  · have : (2 : ℚ) ≤ (l.length : ℚ) := by exact_mod_cast h2
    linarith

lemma length_ge_two_of_qVar_ne_zero (l : List ℚ) (h : qVar l ≠ 0) : 2 ≤ l.length := by
  by_contra hlt
  push_neg at hlt
  interval_cases hl : l.length
  · apply h
    have : l = [] := List.length_eq_zero.1 hl
    subst this
    simp [qVar]
  · apply h
    unfold qVar
    rw [hl]
    norm_num

/-- C5: for every degenerate input series — all values missing, or sample
standard deviation 0 or NaN after treating ±infinity as missing (σ is NaN iff
fewer than two finite observations remain) — `zscore` returns an all-zero
series of the same length as the input, with no NaN and no infinity in the
output. -/
theorem C5_zscore_degenerate_all_zero (series : List QVal)
    (h : (finVals (series.map dropInf)).length ≤ 1
         ∨ qVar (finVals (series.map dropInf)) = 0) :
    zscore series = List.replicate series.length (some 0) ∧
    (zscore series).length = series.length ∧
    ∀ v ∈ zscore series, v = some (0 : ℝ) := by
  have hz : zscore series = List.replicate series.length (some 0) := by
    unfold zscore
    rw [if_pos h]
  refine ⟨hz, ?_, ?_⟩
  · rw [hz, List.length_replicate]
  · intro v hv
    rw [hz] at hv
    exact List.eq_of_mem_replicate hv

theorem C5_witness :
    ((finVals ([QVal.nan, QVal.fin 5, QVal.pinf].map dropInf)).length ≤ 1
      ∨ qVar (finVals ([QVal.nan, QVal.fin 5, QVal.pinf].map dropInf)) = 0) ∧
    zscore [QVal.nan, QVal.fin 5, QVal.pinf] = List.replicate 3 (some 0) :=
  ⟨Or.inl (by decide),
   (C5_zscore_degenerate_all_zero [QVal.nan, QVal.fin 5, QVal.pinf]
      (Or.inl (by decide))).1⟩

lemma list_sum_map_div (l : List ℚ) (f : ℚ → ℝ) (c : ℝ) :
    (l.map (fun x => f x / c)).sum = (l.map f).sum / c := by
  induction l with
  | nil => simp
  | cons a l ih => simp [ih, add_div]

lemma list_sum_map_cast_sub_const (l : List ℚ) (m : ℝ) :
    (l.map (fun x : ℚ => (x : ℝ) - m)).sum = ((l.sum : ℚ) : ℝ) - l.length * m := by
  induction l with
  | nil => simp
  | cons a l ih =>
      simp only [List.map_cons, List.sum_cons, ih, List.length_cons]
      push_cast
      ring

lemma list_sum_map_cast_sq_sub (l : List ℚ) (c : ℚ) :
    (l.map (fun x : ℚ => ((x : ℝ) - (c : ℝ)) ^ 2)).sum
      = (((l.map (fun x => (x - c) ^ 2)).sum : ℚ) : ℝ) := by
  induction l with
  | nil => simp
  | cons a l ih =>
      simp only [List.map_cons, List.sum_cons, ih]
      push_cast
      ring

/-- C6: for every input series with no missing values, no infinities, and
non-zero sample variance, the output of `zscore` is all-finite and has mean 0
and sample standard deviation 1 (exactly, in the real-number model). -/
theorem C6_zscore_mean_zero_std_one (xs : List ℚ) (hv : qVar xs ≠ 0) :
    ∃ ys : List ℝ,
      zscore (xs.map QVal.fin) = ys.map some ∧
      ys.length = xs.length ∧
      rMean ys = 0 ∧ rStd ys = 1 := by
  have hn2 : 2 ≤ xs.length := length_ge_two_of_qVar_ne_zero xs hv
  have hvpos : (0 : ℚ) < qVar xs := lt_of_le_of_ne (qVar_nonneg xs hn2) (Ne.symm hv)
  have hvposR : (0 : ℝ) < (qVar xs : ℝ) := by exact_mod_cast hvpos
  set σ : ℝ := Real.sqrt (qVar xs) with hσdef
  have hσpos : 0 < σ := Real.sqrt_pos.2 hvposR
  have hσsq : σ ^ 2 = (qVar xs : ℝ) := Real.sq_sqrt hvposR.le
  have hnne : (xs.length : ℝ) ≠ 0 := by
    have : (2 : ℝ) ≤ (xs.length : ℝ) := by exact_mod_cast hn2
    linarith
  have hn1 : ((xs.length : ℚ) - 1) ≠ 0 := by
    have h2 : (2 : ℚ) ≤ (xs.length : ℚ) := by exact_mod_cast hn2
    intro h
    rw [sub_eq_zero] at h
    rw [h] at h2
    norm_num at h2
  refine ⟨xs.map (fun x : ℚ => ((x : ℝ) - (qMean xs : ℝ)) / σ), ?_, ?_, ?_, ?_⟩
  · simp only [zscore, map_dropInf_map_fin, finVals_map_fin]
    rw [if_neg (by
      rintro (h1 | h2)
      · omega
      · exact hv h2)]
    simp only [List.map_map]
    rfl
  · simp
  · have hsub : (xs.map (fun x : ℚ => (x : ℝ) - (qMean xs : ℝ))).sum = 0 := by
      rw [list_sum_map_cast_sub_const]
      have hμ : ((qMean xs : ℚ) : ℝ) = ((xs.sum : ℚ) : ℝ) / (xs.length : ℝ) := by
        rw [qMean]
        push_cast
        ring
      rw [hμ]
      field_simp
    have hsum : (xs.map (fun x : ℚ => ((x : ℝ) - (qMean xs : ℝ)) / σ)).sum = 0 := by
      rw [show (xs.map (fun x : ℚ => ((x : ℝ) - (qMean xs : ℝ)) / σ))
            = xs.map (fun x : ℚ => ((fun y : ℚ => (y : ℝ) - (qMean xs : ℝ)) x) / σ) from rfl,
          list_sum_map_div, hsub, zero_div]
    rw [rMean, hsum, zero_div]
  · have hmean : rMean (xs.map (fun x : ℚ => ((x : ℝ) - (qMean xs : ℝ)) / σ)) = 0 := by
      have hsub : (xs.map (fun x : ℚ => (x : ℝ) - (qMean xs : ℝ))).sum = 0 := by
        rw [list_sum_map_cast_sub_const]
        have hμ : ((qMean xs : ℚ) : ℝ) = ((xs.sum : ℚ) : ℝ) / (xs.length : ℝ) := by
          rw [qMean]
          push_cast
          ring
        rw [hμ]
        field_simp
      have hsum : (xs.map (fun x : ℚ => ((x : ℝ) - (qMean xs : ℝ)) / σ)).sum = 0 := by
        rw [show (xs.map (fun x : ℚ => ((x : ℝ) - (qMean xs : ℝ)) / σ))
              = xs.map (fun x : ℚ => ((fun y : ℚ => (y : ℝ) - (qMean xs : ℝ)) x) / σ) from rfl,
            list_sum_map_div, hsub, zero_div]
      rw [rMean, hsum, zero_div]
    rw [rStd, rVar, hmean]
    have hsq : ((xs.map (fun x : ℚ => ((x : ℝ) - (qMean xs : ℝ)) / σ)).map
        (fun x => (x - 0) ^ 2)).sum = ((qVar xs : ℝ) * ((xs.length : ℝ) - 1)) / σ ^ 2 := by
      simp only [sub_zero, List.map_map, Function.comp_def, div_pow]
      rw [show (xs.map fun x : ℚ => ((x : ℝ) - (qMean xs : ℝ)) ^ 2 / σ ^ 2)
            = xs.map (fun x : ℚ => ((fun y : ℚ => ((y : ℝ) - (qMean xs : ℝ)) ^ 2) x) / σ ^ 2)
          from rfl, list_sum_map_div, list_sum_map_cast_sq_sub]
      have hS : (xs.map (fun x => (x - qMean xs) ^ 2)).sum
          = qVar xs * ((xs.length : ℚ) - 1) := by
        rw [qVar, div_mul_cancel₀ _ hn1]
      rw [hS]
      push_cast
      ring
    rw [hsq, List.length_map, hσsq]
    have hn1R : ((xs.length : ℝ) - 1) ≠ 0 := by
      have h2 : (2 : ℝ) ≤ (xs.length : ℝ) := by exact_mod_cast hn2
      intro h
      rw [sub_eq_zero] at h
      rw [h] at h2
      norm_num at h2
    have hvne : (qVar xs : ℝ) ≠ 0 := ne_of_gt hvposR
    have harg : (qVar xs : ℝ) * ((xs.length : ℝ) - 1) / (qVar xs : ℝ) / ((xs.length : ℝ) - 1)
        = 1 := by
      field_simp
    rw [harg, Real.sqrt_one]

theorem C6_witness :
    qVar [0, 2] ≠ 0 ∧
    ∃ ys : List ℝ,
      zscore (([0, 2] : List ℚ).map QVal.fin) = ys.map some ∧
      ys.length = ([0, 2] : List ℚ).length ∧
      rMean ys = 0 ∧ rStd ys = 1 :=
  ⟨by norm_num [qVar, qMean],
   C6_zscore_mean_zero_std_one [0, 2] (by norm_num [qVar, qMean])⟩

/-! ## Threshold engine: `compute_thresholds` (`src/analysis.py`) -/

/-- NaN-propagating addition on √-derived values. -/
def rAdd : RVal → RVal → RVal
  | some a, some b => some (a + b)
  | _, _ => none

/-- NaN-propagating multiplication by a (finite) scalar. -/
def rMulC (c : ℝ) : RVal → RVal
  | some a => some (c * a)
  | none => none

/-- pandas `Series.std()` (`ddof = 1`) of the finite values: NaN when fewer
than two observations remain, else √(sample variance). -/
noncomputable def sampleStdF (l : List ℚ) : RVal :=
  if l.length ≤ 1 then none else some (Real.sqrt (qVar l))

/-- Ascending insertion sort of rationals (the value-level ordering performed
inside `Series.quantile`). -/
def insertAsc (a : ℚ) : List ℚ → List ℚ
  | [] => [a]
  | b :: l => if a ≤ b then a :: b :: l else b :: insertAsc a l

/-- Ascending sort of rationals. -/
def sortAsc : List ℚ → List ℚ
  | [] => []
  | a :: l => insertAsc a (sortAsc l)

/-- pandas `Series.quantile(p)` with the default linear interpolation on the
sorted values: with `h = (n-1)·p` and `i = ⌊h⌋`, the result is
`x_i + (h - i)·(x_(i+1) - x_i)`. -/
def quantile (l : List ℚ) (p : ℚ) : ℚ :=
  let xs := sortAsc l
  let n := xs.length
  let h : ℚ := ((n : ℚ) - 1) * p
  let i : ℕ := (Int.floor h).toNat
  let lo := xs.getD i 0
  let hi := xs.getD (min (i + 1) (n - 1)) 0
  lo + (h - (i : ℚ)) * (hi - lo)

/-- The `method` argument of `compute_thresholds` after the source's
`(method or "").lower().strip()` normalisation: `"std"`, or anything else
(handled as the percentile default). -/
inductive Method where
  | percentile
  | std
  deriving DecidableEq, Repr

/-- Model of `compute_thresholds` from `src/analysis.py`: drop ±inf and NaN;
with fewer than 50 usable observations return `(mu + 1·sigma, mu + 2·sigma)`
(with `mu = 0`, `sigma = 1` for an empty series); else for `"std"` return
`(mean + k_stress·std, mean + k_extreme·std)`; else take the `p_stress` and
`p_extreme` quantiles, bumping the extreme threshold to `stress + 1e-6` if it
would tie or invert. -/
noncomputable def compute_thresholds (stress_series : List QVal) (method : Method)
    (p_stress p_extreme k_stress k_extreme : ℚ) : RVal × RVal :=
  let s := finVals (stress_series.map dropInf)
  if s.length < 50 then
    let mu : ℚ := if s.length ≠ 0 then qMean s else 0
    let sigma : RVal := if s.length ≠ 0 then sampleStdF s else some 1
    (rAdd (some (mu : ℝ)) (rMulC 1 sigma), rAdd (some (mu : ℝ)) (rMulC 2 sigma))
  else
    match method with
    | Method.std =>
        (some ((qMean s : ℝ) + (k_stress : ℝ) * Real.sqrt (qVar s)),
         some ((qMean s : ℝ) + (k_extreme : ℝ) * Real.sqrt (qVar s)))
    | Method.percentile =>
        let stress_thr := quantile s p_stress
        let extreme_thr := quantile s p_extreme
        let extreme_thr' :=
          if extreme_thr ≤ stress_thr then stress_thr + 1 / 1000000 else extreme_thr
        (some (stress_thr : ℝ), some (extreme_thr' : ℝ))

/-- The invariant asserted by claim C1 of a thresholds pair: both components
are numbers (not NaN) and extreme ≥ stress + 1e-6. -/
def thrGap (r : RVal × RVal) : Prop :=
  ∃ a b : ℝ, r.1 = some a ∧ r.2 = some b ∧ a + 1 / 1000000 ≤ b

/-- C2: with fewer than 50 usable (finite) observations, `compute_thresholds`
takes the fallback for every method: it returns `(mean + 1·std, mean + 2·std)`
of the cleaned series (pandas' NaN std for a single observation propagates
through the NaN arithmetic), and `(1, 2)` when the cleaned series is empty
(`mu = 0`, `sigma = 1`). -/
theorem C2_fallback_mean_std (series : List QVal) (method : Method)
    (p_stress p_extreme k_stress k_extreme : ℚ)
    (h : (finVals (series.map dropInf)).length < 50) :
    (finVals (series.map dropInf) ≠ [] →
      compute_thresholds series method p_stress p_extreme k_stress k_extreme
        = (rAdd (some ((qMean (finVals (series.map dropInf))) : ℝ))
                (rMulC 1 (sampleStdF (finVals (series.map dropInf)))),
           rAdd (some ((qMean (finVals (series.map dropInf))) : ℝ))
                (rMulC 2 (sampleStdF (finVals (series.map dropInf)))))) ∧
    (finVals (series.map dropInf) = [] →
      compute_thresholds series method p_stress p_extreme k_stress k_extreme
        = (some 1, some 2)) := by
  constructor
  · intro hne
    have hlen : (finVals (series.map dropInf)).length ≠ 0 := by
      simpa [List.length_eq_zero] using hne
    simp only [compute_thresholds]
    rw [if_pos h, if_pos hlen, if_pos hlen]
  · intro hemp
    simp only [compute_thresholds]
    rw [if_pos h]
    rw [hemp]
    simp [rAdd, rMulC]

theorem C2_witness :
    (finVals ([QVal.fin 1, QVal.fin 2, QVal.fin 3].map dropInf)).length < 50 ∧
    compute_thresholds [QVal.fin 1, QVal.fin 2, QVal.fin 3] Method.std
      (85/100) (95/100) 1 2 = (some 3, some 4) := by
  refine ⟨by decide, ?_⟩
  have hfv : finVals ([QVal.fin 1, QVal.fin 2, QVal.fin 3].map dropInf) = [1, 2, 3] := rfl
  have h := (C2_fallback_mean_std [QVal.fin 1, QVal.fin 2, QVal.fin 3] Method.std
      (85/100) (95/100) 1 2 (by decide)).1 (by rw [hfv]; simp)
  rw [h, hfv]
  have hvar : qVar [1, 2, 3] = 1 := by norm_num [qVar, qMean]
  have hμ : qMean [1, 2, 3] = 2 := by norm_num [qMean]
  rw [sampleStdF]
  rw [if_neg (by norm_num), hvar, hμ]
  have h1 : ((1 : ℚ) : ℝ) = 1 := by norm_num
  rw [h1, Real.sqrt_one]
  simp only [rAdd, rMulC]
  norm_num

/-- C1 counterexample: on the two-observation constant series `[0, 0]` the
fallback path is taken (for any method), σ = 0, and `compute_thresholds`
returns `(0, 0)`: extreme_thr ≥ stress_thr + 1e-6 fails. -/
theorem C1_counterexample :
    ¬ thrGap (compute_thresholds [QVal.fin 0, QVal.fin 0] Method.percentile
        (85/100) (95/100) 1 2) := by
  have hres : compute_thresholds [QVal.fin 0, QVal.fin 0] Method.percentile
      (85/100) (95/100) 1 2 = (some 0, some 0) := by
    have hfv : finVals ([QVal.fin 0, QVal.fin 0].map dropInf) = [0, 0] := rfl
    have h := (C2_fallback_mean_std [QVal.fin 0, QVal.fin 0] Method.percentile
        (85/100) (95/100) 1 2 (by decide)).1 (by rw [hfv]; simp)
    rw [h, hfv]
    have hvar : qVar [0, 0] = 0 := by norm_num [qVar, qMean]
    have hμ : qMean [0, 0] = 0 := by norm_num [qMean]
    rw [sampleStdF]
    rw [if_neg (by norm_num), hvar, hμ]
    have h0 : ((0 : ℚ) : ℝ) = 0 := by norm_num
    rw [h0, Real.sqrt_zero]
    simp only [rAdd, rMulC]
    norm_num
  rw [hres]
  rintro ⟨a, b, ha, hb, hab⟩
  simp only [Option.some_inj] at ha hb
  rw [← ha, ← hb] at hab
  norm_num at hab

/-- C1 (amended): the gap invariant is enforced only on the percentile path.
For the percentile method with at least 50 usable observations,
`compute_thresholds` guarantees extreme_thr > stress_thr strictly (equal to
stress_thr + 1e-6 exactly when the raw quantiles tie or invert); the std
method and the under-50 fallback enforce no gap, and the guaranteed gap is
strict positivity, not 1e-6. -/
theorem C1_percentile_strict_gap (series : List QVal)
    (p_stress p_extreme k_stress k_extreme : ℚ)
    (h50 : 50 ≤ (finVals (series.map dropInf)).length) :
    ∃ a b : ℝ,
      compute_thresholds series Method.percentile p_stress p_extreme k_stress k_extreme
        = (some a, some b) ∧ a < b := by
  simp only [compute_thresholds]
  rw [if_neg (by omega)]
  set s := finVals (series.map dropInf)
  by_cases hle : quantile s p_extreme ≤ quantile s p_stress
  · refine ⟨quantile s p_stress, quantile s p_stress + 1 / 1000000, ?_, by norm_num⟩
    rw [if_pos hle]
    push_cast
    norm_num
  · refine ⟨quantile s p_stress, quantile s p_extreme, ?_, ?_⟩
    · rw [if_neg hle]
    · push_neg at hle
      exact_mod_cast hle

theorem C1_amended_witness :
    50 ≤ (finVals ((List.replicate 50 (QVal.fin 0)).map dropInf)).length ∧
    ∃ a b : ℝ,
      compute_thresholds (List.replicate 50 (QVal.fin 0)) Method.percentile
        (85/100) (95/100) 1 2 = (some a, some b) ∧ a < b :=
  ⟨by decide,
   C1_percentile_strict_gap (List.replicate 50 (QVal.fin 0))
     (85/100) (95/100) 1 2 (by decide)⟩

/-! ## Regime assignment (`add_regime` in `src/scoring.py`; `app.py`) -/

/-- Regime labels. -/
inductive Regime where
  | Normal
  | Stress
  | Extreme
  deriving DecidableEq, Repr

/-- Severity rank of a regime, used to state monotonicity. -/
def regimeRank : Regime → ℕ
  | Regime.Normal => 0
  | Regime.Stress => 1
  | Regime.Extreme => 2

/-- Model of the two-pass regime assignment used both by `add_regime`
(`src/scoring.py`) and by `app.py`: every row starts as `Normal`, rows with
`score > stress_thr` are set to `Stress`, then rows with
`score > extreme_thr` are overwritten to `Extreme`. -/
def assignRegimes (stress_thr extreme_thr : ℚ) (scores : List ℚ) : List Regime :=
  let r0 := scores.map (fun _ => Regime.Normal)
  let r1 := List.zipWith (fun s r => if stress_thr < s then Regime.Stress else r) scores r0
  let r2 := List.zipWith (fun s r => if extreme_thr < s then Regime.Extreme else r) scores r1
  r2

/-- `add_regime` from `src/scoring.py`: the same two-pass assignment with the
fixed default cutoffs 1.5 and 2.5. -/
def add_regime (scores : List ℚ) : List Regime :=
  assignRegimes (3 / 2) (5 / 2) scores

/-- Per-score form of the two-pass assignment (Extreme overwrites Stress). -/
def regimeLabel (stress_thr extreme_thr s : ℚ) : Regime :=
  if extreme_thr < s then Regime.Extreme
  else if stress_thr < s then Regime.Stress
  else Regime.Normal

lemma assignRegimes_eq_map (stress_thr extreme_thr : ℚ) (scores : List ℚ) :
    assignRegimes stress_thr extreme_thr scores
      = scores.map (regimeLabel stress_thr extreme_thr) := by
  induction scores with
  | nil => rfl
  | cons a l ih =>
      simp only [assignRegimes, List.map_cons, List.zipWith_cons_cons] at ih ⊢
      rw [ih]
      rfl

/-- C3: with fixed thresholds `stress_thr < extreme_thr`, the assigned regime
of each row is exactly: `Extreme` iff `score > extreme_thr`, `Stress` iff
`stress_thr < score ≤ extreme_thr`, `Normal` iff `score ≤ stress_thr`; and
the labelling is monotone in the score, so increasing a score never lowers
the regime's severity. -/
theorem C3_regime_exact_and_monotone (stress_thr extreme_thr : ℚ)
    (hst : stress_thr < extreme_thr) :
    (∀ scores : List ℚ,
      assignRegimes stress_thr extreme_thr scores
        = scores.map (regimeLabel stress_thr extreme_thr)) ∧
    (∀ s : ℚ,
      (regimeLabel stress_thr extreme_thr s = Regime.Extreme ↔ extreme_thr < s) ∧
      (regimeLabel stress_thr extreme_thr s = Regime.Stress
        ↔ stress_thr < s ∧ s ≤ extreme_thr) ∧
      (regimeLabel stress_thr extreme_thr s = Regime.Normal ↔ s ≤ stress_thr)) ∧
    (∀ s s' : ℚ, s ≤ s' →
      regimeRank (regimeLabel stress_thr extreme_thr s)
        ≤ regimeRank (regimeLabel stress_thr extreme_thr s')) := by
  refine ⟨assignRegimes_eq_map stress_thr extreme_thr, ?_, ?_⟩
  · intro s
    unfold regimeLabel
    split_ifs with h1 h2
    · refine ⟨⟨fun _ => h1, fun _ => rfl⟩, ?_, ?_⟩
      · constructor
        · intro h
          exact absurd h (by decide)
        · rintro ⟨_, hle⟩
          exact absurd h1 (by linarith)
      · constructor
        · intro h
          exact absurd h (by decide)
        · intro hle
          exact absurd h1 (by linarith)
    · refine ⟨?_, ⟨fun _ => ⟨h2, by linarith⟩, fun _ => rfl⟩, ?_⟩
      · constructor
        · intro h
          exact absurd h (by decide)
        · intro h
          exact absurd h h1
      · constructor
        · intro h
          exact absurd h (by decide)
        · intro hle
          exact absurd h2 (by linarith)
    · refine ⟨?_, ?_, ⟨fun _ => by linarith, fun _ => rfl⟩⟩
      · constructor
        · intro h
          exact absurd h (by decide)
        · intro h
          exact absurd h h1
      · constructor
        · intro h
          exact absurd h (by decide)
        · rintro ⟨hgt, _⟩
          exact absurd hgt h2
  · intro s s' hss
    unfold regimeLabel
    split_ifs with h1 h2 h3 h4 h5 h6 <;> simp [regimeRank] <;> linarith

theorem C3_witness :
    ((3 : ℚ) / 2 < 5 / 2) ∧
    assignRegimes (3 / 2) (5 / 2) [1, 2, 3]
      = [Regime.Normal, Regime.Stress, Regime.Extreme] := by
  refine ⟨by norm_num, ?_⟩
  rw [(C3_regime_exact_and_monotone (3 / 2) (5 / 2) (by norm_num)).1 [1, 2, 3]]
  norm_num [regimeLabel]

/-! ## Table model and feature transforms (`src/features.py`) -/

/-- One table column: raw float cells (`qs`) or √-derived cells (`rs`:
rolling std, z-scores, stress score). -/
inductive Col where
  | qs : List QVal → Col
  | rs : List RVal → Col

/-- A data table: named columns in insertion order. -/
abbrev Df := List (String × Col)

/-- pandas column assignment `df[name] = col`: replaces the column in place
when the name exists, else appends it at the end. -/
def setCol (df : Df) (name : String) (col : Col) : Df :=
  match df with
  | [] => [(name, col)]
  | (n, c) :: rest =>
      if n = name then (name, col) :: rest
      else (n, c) :: setCol rest name col

/-- Raw cells of a named column (a missing column reads as empty). -/
def getQ (df : Df) (name : String) : List QVal :=
  match List.lookup name df with
  | some (Col.qs l) => l
  | _ => []

lemma lookup_setCol_self (df : Df) (name : String) (col : Col) :
    List.lookup name (setCol df name col) = some col := by
  induction df with
  | nil => simp [setCol]
  | cons p rest ih =>
      obtain ⟨n, c⟩ := p
      by_cases h : n = name
      · simp [setCol, h]
      · have hb : (name == n) = false := by
          rw [beq_eq_false_iff_ne]
          exact Ne.symm h
        simp [setCol, h, List.lookup, hb, ih]

lemma lookup_setCol_ne (df : Df) (name name' : String) (col : Col)
    (h : name' ≠ name) :
    List.lookup name' (setCol df name col) = List.lookup name' df := by
  have hb : (name' == name) = false := by
    rw [beq_eq_false_iff_ne]
    exact h
  induction df with
  | nil => simp [setCol, List.lookup, hb]
  | cons p rest ih =>
      obtain ⟨n, c⟩ := p
      by_cases hn : n = name
      · subst hn
        simp [setCol, List.lookup, hb]
      · simp only [setCol, hn, ite_false, List.lookup, ih]

lemma getQ_setCol_self (df : Df) (name : String) (l : List QVal) :
    getQ (setCol df name (Col.qs l)) name = l := by
  simp [getQ, lookup_setCol_self]

lemma getQ_setCol_ne (df : Df) (name name' : String) (col : Col) (h : name' ≠ name) :
    getQ (setCol df name col) name' = getQ df name' := by
  simp [getQ, lookup_setCol_ne df name name' col h]

lemma setCol_append_of_not_mem (df : Df) (name : String) (col : Col)
    (h : ∀ p ∈ df, p.1 ≠ name) :
    setCol df name col = df ++ [(name, col)] := by
  induction df with
  | nil => rfl
  | cons p rest ih =>
      obtain ⟨n, c⟩ := p
      have hn : n ≠ name := h (n, c) (List.mem_cons_self _ _)
      simp [setCol, hn]
      exact ih (fun q hq => h q (List.mem_cons_of_mem _ hq))

/-- `Series.pct_change()`: NaN in the first row, then `x[t]/x[t-1] - 1`. -/
def pctChange : List QVal → List QVal
  | [] => []
  | x :: xs =>
      QVal.nan ::
        List.zipWith (fun cur prev => QVal.sub (QVal.div cur prev) (QVal.fin 1)) xs (x :: xs)

/-- `add_returns` from `src/features.py` (price column `"Close"`). -/
def add_returns (df : Df) : Df :=
  setCol df "ret" (Col.qs (pctChange (getQ df "Close")))

/-- Cells of the trailing window of width `w` ending at row `i`. -/
def windowSlice (l : List QVal) (w i : ℕ) : List QVal :=
  (l.take (i + 1)).drop (i + 1 - w)

/-- Sum of cells with IEEE semantics. -/
def qvSum (l : List QVal) : QVal := l.foldr QVal.add (QVal.fin 0)

/-- `Series.rolling(w).mean()`: NaN until the window fills, then the mean of
the trailing `w` cells (NaN and ±inf propagate). -/
def rollMean (w : ℕ) (l : List QVal) : List QVal :=
  (List.range l.length).map (fun i =>
    if i + 1 < w then QVal.nan
    else QVal.div (qvSum (windowSlice l w i)) (QVal.fin w))

/-- `Series.rolling(w).std()` (`ddof = 1`): NaN until the window fills and
whenever the window holds a NaN (row count below `min_periods`), a ±inf, or
fewer than two observations; else √(sample variance) of the window. -/
noncomputable def rollStd (w : ℕ) (l : List QVal) : List RVal :=
  (List.range l.length).map (fun i =>
    if i + 1 < w then none
    else
      let win := windowSlice l w i
      if 2 ≤ w ∧ (finVals win).length = win.length then
        some (Real.sqrt (qVar (finVals win)))
      else none)

/-- `add_rolling_volatility` from `src/features.py` (returns column `"ret"`). -/
noncomputable def add_rolling_volatility (df : Df) (window : ℕ) : Df :=
  setCol df "volatility" (Col.rs (rollStd window (getQ df "ret")))

/-- `add_volume_shock` from `src/features.py`: `Volume / rolling_mean(Volume, w)`. -/
def add_volume_shock (df : Df) (window : ℕ) : Df :=
  setCol df "vol_shock"
    (Col.qs (List.zipWith QVal.div (getQ df "Volume")
      (rollMean window (getQ df "Volume"))))

/-- `.replace(0, np.nan)` on one cell. -/
def replaceZeroNan (v : QVal) : QVal :=
  if v = QVal.fin 0 then QVal.nan else v

/-- `add_liquidity_proxy` from `src/features.py`:
`range = (High - Low).replace(0, nan)`, `liq_proxy = Volume / range`. -/
def add_liquidity_proxy (df : Df) : Df :=
  let rangeCol := (List.zipWith QVal.sub (getQ df "High") (getQ df "Low")).map replaceZeroNan
  let df1 := setCol df "range" (Col.qs rangeCol)
  setCol df1 "liq_proxy"
    (Col.qs (List.zipWith QVal.div (getQ df1 "Volume") (getQ df1 "range")))

lemma qv_div_nan (v : QVal) : QVal.div v QVal.nan = QVal.nan := by
  cases v <;> rfl

lemma replaceZeroNan_sub_self (v : QVal) : replaceZeroNan (QVal.sub v v) = QVal.nan := by
  cases v <;> simp [QVal.sub, replaceZeroNan]

lemma qv_div_zero (v : QVal) :
    QVal.div v (QVal.fin 0) = QVal.nan ∨ QVal.div v (QVal.fin 0) = QVal.pinf ∨
    QVal.div v (QVal.fin 0) = QVal.ninf := by
  cases v with
  | fin a =>
      by_cases h : a = 0
      · subst h
        left
        simp [QVal.div]
      · by_cases hp : 0 < a
        · right; left
          simp [QVal.div, h, hp]
        · right; right
          simp [QVal.div, h, hp]
  | pinf =>
      right; left
      simp [QVal.div]
  | ninf =>
      right; right
      simp [QVal.div]
  | nan => left; rfl

lemma getD_zipWith (f : QVal → QVal → QVal) (as bs : List QVal) (i : ℕ) (d : QVal)
    (ha : i < as.length) (hb : i < bs.length) :
    (List.zipWith f as bs).getD i d = f (as.getD i d) (bs.getD i d) := by
  induction as generalizing bs i with
  | nil => simp at ha
  | cons a as ih =>
      cases bs with
      | nil => simp at hb
      | cons b bs =>
          cases i with
          | zero => rfl
          | succ j =>
              simp only [List.zipWith_cons_cons, List.getD_cons_succ]
              exact ih bs j (by simpa using ha) (by simpa using hb)

lemma getD_map_lt (f : QVal → QVal) (l : List QVal) (i : ℕ) (d d' : QVal)
    (h : i < l.length) :
    (l.map f).getD i d = f (l.getD i d') := by
  rw [List.getD_eq_getElem _ _ (by simpa using h), List.getD_eq_getElem _ _ h,
    List.getElem_map]

lemma rollMean_length (w : ℕ) (l : List QVal) : (rollMean w l).length = l.length := by
  simp [rollMean]

lemma rollMean_getD (w : ℕ) (l : List QVal) (i : ℕ) (d : QVal) (hi : i < l.length) :
    (rollMean w l).getD i d
      = if i + 1 < w then QVal.nan
        else QVal.div (qvSum (windowSlice l w i)) (QVal.fin w) := by
  rw [List.getD_eq_getElem _ _ (by simpa [rollMean] using hi)]
  simp [rollMean]

/-- C9: zero denominators never abort a feature transform.  If `High = Low`
at some row, `add_liquidity_proxy` stores NaN in `liq_proxy` there (the zero
range is mapped to NaN); if the trailing `w`-bar volume mean is exactly 0,
`add_volume_shock` stores NaN or ±infinity in `vol_shock` there.  Both
transforms are total functions in this model: no input raises. -/
theorem C9_zero_denominators_never_abort :
    (∀ df : Df, ∀ i : ℕ,
      i < (getQ df "High").length → i < (getQ df "Low").length →
      i < (getQ df "Volume").length →
      (getQ df "High").getD i QVal.nan = (getQ df "Low").getD i QVal.nan →
      (getQ (add_liquidity_proxy df) "liq_proxy").getD i QVal.nan = QVal.nan) ∧
    (∀ df : Df, ∀ w i : ℕ,
      i < (getQ df "Volume").length →
      (rollMean w (getQ df "Volume")).getD i QVal.nan = QVal.fin 0 →
      ((getQ (add_volume_shock df w) "vol_shock").getD i QVal.nan = QVal.nan ∨
       (getQ (add_volume_shock df w) "vol_shock").getD i QVal.nan = QVal.pinf ∨
       (getQ (add_volume_shock df w) "vol_shock").getD i QVal.nan = QVal.ninf)) := by
  constructor
  · intro df i hH hL hV heq
    simp only [add_liquidity_proxy]
    rw [getQ_setCol_self]
    have hVol : getQ (setCol df "range"
        (Col.qs ((List.zipWith QVal.sub (getQ df "High") (getQ df "Low")).map
          replaceZeroNan))) "Volume" = getQ df "Volume" :=
      getQ_setCol_ne _ _ _ _ (by decide)
    rw [hVol, getQ_setCol_self]
    have hrlen : i < ((List.zipWith QVal.sub (getQ df "High") (getQ df "Low")).map
        replaceZeroNan).length := by
      simp only [List.length_map, List.length_zipWith]
      omega
    rw [getD_zipWith _ _ _ _ QVal.nan hV hrlen]
    rw [getD_map_lt replaceZeroNan _ i QVal.nan QVal.nan (by
      simp only [List.length_zipWith]
      omega)]
    rw [getD_zipWith _ _ _ _ QVal.nan hH hL, heq, replaceZeroNan_sub_self, qv_div_nan]
  · intro df w i hV hden
    simp only [add_volume_shock]
    rw [getQ_setCol_self]
    have hrlen : i < (rollMean w (getQ df "Volume")).length := by
      rw [rollMean_length]
      exact hV
    rw [getD_zipWith _ _ _ _ QVal.nan hV hrlen, hden]
    exact qv_div_zero _

theorem C9_witness :
    (0 < (getQ [("High", Col.qs [QVal.fin 2]), ("Low", Col.qs [QVal.fin 2]),
        ("Volume", Col.qs [QVal.fin 7])] "High").length ∧
     (getQ (add_liquidity_proxy [("High", Col.qs [QVal.fin 2]), ("Low", Col.qs [QVal.fin 2]),
        ("Volume", Col.qs [QVal.fin 7])]) "liq_proxy").getD 0 QVal.nan = QVal.nan) ∧
    ((rollMean 2 (getQ [("Volume", Col.qs [QVal.fin 0, QVal.fin 0])] "Volume")).getD 1
        QVal.nan = QVal.fin 0 ∧
     ((getQ (add_volume_shock [("Volume", Col.qs [QVal.fin 0, QVal.fin 0])] 2)
        "vol_shock").getD 1 QVal.nan = QVal.nan ∨
      (getQ (add_volume_shock [("Volume", Col.qs [QVal.fin 0, QVal.fin 0])] 2)
        "vol_shock").getD 1 QVal.nan = QVal.pinf ∨
      (getQ (add_volume_shock [("Volume", Col.qs [QVal.fin 0, QVal.fin 0])] 2)
        "vol_shock").getD 1 QVal.nan = QVal.ninf)) := by
  have hden : (rollMean 2 (getQ [("Volume", Col.qs [QVal.fin 0, QVal.fin 0])]
      "Volume")).getD 1 QVal.nan = QVal.fin 0 := by
    have h2 : (1 : ℕ) < (getQ [("Volume", Col.qs [QVal.fin 0, QVal.fin 0])]
        "Volume").length := by
      simp [getQ, List.lookup]
    rw [rollMean_getD 2 _ 1 QVal.nan h2]
    norm_num [getQ, List.lookup, windowSlice, qvSum, QVal.add, QVal.div]
  refine ⟨⟨?_, ?_⟩, hden, ?_⟩
  · simp [getQ, List.lookup]
  · exact (C9_zero_denominators_never_abort.1
      [("High", Col.qs [QVal.fin 2]), ("Low", Col.qs [QVal.fin 2]),
       ("Volume", Col.qs [QVal.fin 7])] 0
      (by simp [getQ, List.lookup]) (by simp [getQ, List.lookup])
      (by simp [getQ, List.lookup]) rfl)
  · exact (C9_zero_denominators_never_abort.2
      [("Volume", Col.qs [QVal.fin 0, QVal.fin 0])] 2 1
      (by simp [getQ, List.lookup]) hden)

/-- C10 counterexample: `add_returns` applied to a table that already
contains a `ret` column overwrites that column in place (pandas column
assignment), so a pre-existing input column is not preserved unchanged. -/
theorem C10_counterexample :
    List.lookup "ret" (add_returns
        [("Close", Col.qs [QVal.fin 1, QVal.fin 2]),
         ("ret", Col.qs [QVal.fin 5, QVal.fin 5])])
      ≠ some (Col.qs [QVal.fin 5, QVal.fin 5]) := by
  have hres : add_returns [("Close", Col.qs [QVal.fin 1, QVal.fin 2]),
      ("ret", Col.qs [QVal.fin 5, QVal.fin 5])]
      = [("Close", Col.qs [QVal.fin 1, QVal.fin 2]),
         ("ret", Col.qs (pctChange [QVal.fin 1, QVal.fin 2]))] := by
    simp [add_returns, setCol, getQ, List.lookup]
  rw [hres]
  simp [List.lookup, pctChange]

/-- C10 (amended): each of the four feature transforms is pure — it returns a
new table and leaves its input untouched — and, provided the input does not
already contain the transform's output column names (`ret`; `volatility`;
`vol_shock`; `range` and `liq_proxy`), the result is exactly the input table
with the new columns appended at the end, every pre-existing column unchanged.
A pre-existing output column is instead overwritten in place. -/
theorem C10_transforms_append_only :
    (∀ df : Df, (∀ p ∈ df, p.1 ≠ "ret") →
      add_returns df = df ++ [("ret", Col.qs (pctChange (getQ df "Close")))]) ∧
    (∀ df : Df, ∀ w : ℕ, (∀ p ∈ df, p.1 ≠ "volatility") →
      add_rolling_volatility df w
        = df ++ [("volatility", Col.rs (rollStd w (getQ df "ret")))]) ∧
    (∀ df : Df, ∀ w : ℕ, (∀ p ∈ df, p.1 ≠ "vol_shock") →
      add_volume_shock df w
        = df ++ [("vol_shock", Col.qs (List.zipWith QVal.div (getQ df "Volume")
            (rollMean w (getQ df "Volume"))))]) ∧
    (∀ df : Df, (∀ p ∈ df, p.1 ≠ "range") → (∀ p ∈ df, p.1 ≠ "liq_proxy") →
      add_liquidity_proxy df
        = df ++ [("range", Col.qs ((List.zipWith QVal.sub (getQ df "High")
              (getQ df "Low")).map replaceZeroNan)),
            ("liq_proxy", Col.qs (List.zipWith QVal.div (getQ df "Volume")
              ((List.zipWith QVal.sub (getQ df "High")
                (getQ df "Low")).map replaceZeroNan)))]) := by
  refine ⟨?_, ?_, ?_, ?_⟩
  · intro df h
    exact setCol_append_of_not_mem df "ret" _ h
  · intro df w h
    exact setCol_append_of_not_mem df "volatility" _ h
  · intro df w h
    exact setCol_append_of_not_mem df "vol_shock" _ h
  · intro df hr hl
    simp only [add_liquidity_proxy]
    rw [setCol_append_of_not_mem df "range" _ hr]
    have hvol : getQ (df ++ [("range", Col.qs ((List.zipWith QVal.sub (getQ df "High")
        (getQ df "Low")).map replaceZeroNan))]) "Volume"
        = getQ df "Volume" := by
      rw [← setCol_append_of_not_mem df "range" _ hr]
      exact getQ_setCol_ne _ _ _ _ (by decide)
    have hran : getQ (df ++ [("range", Col.qs ((List.zipWith QVal.sub (getQ df "High")
        (getQ df "Low")).map replaceZeroNan))]) "range"
        = (List.zipWith QVal.sub (getQ df "High") (getQ df "Low")).map replaceZeroNan := by
      rw [← setCol_append_of_not_mem df "range" _ hr]
      exact getQ_setCol_self _ _ _
    rw [hvol, hran]
    rw [setCol_append_of_not_mem _ "liq_proxy" _ (by
      intro p hp
      rcases List.mem_append.1 hp with hp1 | hp2
      · exact hl p hp1
      · rcases List.mem_singleton.1 hp2 with rfl
        show ("range" : String) ≠ "liq_proxy"
        decide)]
    rw [List.append_assoc]
    rfl

theorem C10_witness :
    add_returns [("Close", Col.qs [QVal.fin 1])]
      = [("Close", Col.qs [QVal.fin 1]),
         ("ret", Col.qs (pctChange (getQ [("Close", Col.qs [QVal.fin 1])] "Close")))] ∧
    add_rolling_volatility [] 20 = [("volatility", Col.rs (rollStd 20 (getQ [] "ret")))] ∧
    add_volume_shock [] 30
      = [("vol_shock", Col.qs (List.zipWith QVal.div (getQ [] "Volume")
          (rollMean 30 (getQ [] "Volume"))))] ∧
    add_liquidity_proxy []
      = [("range", Col.qs ((List.zipWith QVal.sub (getQ [] "High")
            (getQ [] "Low")).map replaceZeroNan)),
         ("liq_proxy", Col.qs (List.zipWith QVal.div (getQ [] "Volume")
           ((List.zipWith QVal.sub (getQ [] "High")
             (getQ [] "Low")).map replaceZeroNan)))] := by
  refine ⟨?_, ?_, ?_, ?_⟩
  · simpa using C10_transforms_append_only.1 [("Close", Col.qs [QVal.fin 1])]
      (by simp)
  · simpa using C10_transforms_append_only.2.1 [] 20 (by simp)
  · simpa using C10_transforms_append_only.2.2.1 [] 30 (by simp)
  · simpa using C10_transforms_append_only.2.2.2 [] (by simp) (by simp)

/-! ## Scoring engine: `compute_stress_score` (`src/scoring.py`) -/

/-- NaN-propagating weighted combination `w1·a + w2·b + w3·c` of three
z-score cells (the stress-score formula). -/
def weighted3 (w1 w2 w3 : ℚ) (a b c : RVal) : RVal :=
  rAdd (rAdd (rMulC (w1 : ℝ) a) (rMulC (w2 : ℝ) b)) (rMulC (w3 : ℝ) c)

/-- Model of `compute_stress_score` from `src/scoring.py`: check that the
three feature columns exist, raising `ValueError` naming the missing ones
otherwise; then append `vol_z`, `volshock_z`, `liq_z` (z-scores of the
feature columns) and `stress_score = w_vol·vol_z + w_volshock·volshock_z +
w_liq·liq_z`. -/
noncomputable def compute_stress_score (df : Df) (w_vol w_volshock w_liq : ℚ) :
    Except (List String) Df :=
  let needed := ["volatility", "vol_shock", "liq_proxy"]
  let missing := needed.filter (fun c => (List.lookup c df).isNone)
  if missing ≠ [] then Except.error missing
  else
    let volz := zscore (getQ df "volatility")
    let shockz := zscore (getQ df "vol_shock")
    let liqz := zscore (getQ df "liq_proxy")
    let df1 := setCol df "vol_z" (Col.rs volz)
    let df2 := setCol df1 "volshock_z" (Col.rs shockz)
    let df3 := setCol df2 "liq_z" (Col.rs liqz)
    Except.ok (setCol df3 "stress_score"
      (Col.rs (List.zipWith3 (weighted3 w_vol w_volshock w_liq) volz shockz liqz)))

/-- C4: `compute_stress_score` fails if and only if at least one of
`volatility`, `vol_shock`, `liq_proxy` is absent; the error names exactly the
missing columns; and when all three are present it succeeds and appends
`stress_score` as the weighted sum of the z-scores of the three feature
columns (each z-column being the zscore of the corresponding feature). -/
theorem C4_missing_columns_iff_error (df : Df) (w_vol w_volshock w_liq : ℚ) :
    ((∃ m, compute_stress_score df w_vol w_volshock w_liq = Except.error m)
      ↔ ((List.lookup "volatility" df).isNone ∨ (List.lookup "vol_shock" df).isNone
          ∨ (List.lookup "liq_proxy" df).isNone)) ∧
    (∀ m, compute_stress_score df w_vol w_volshock w_liq = Except.error m →
      m = ["volatility", "vol_shock", "liq_proxy"].filter
        (fun c => (List.lookup c df).isNone)) ∧
    (¬ ((List.lookup "volatility" df).isNone ∨ (List.lookup "vol_shock" df).isNone
        ∨ (List.lookup "liq_proxy" df).isNone) →
      ∃ out, compute_stress_score df w_vol w_volshock w_liq = Except.ok out ∧
        List.lookup "vol_z" out = some (Col.rs (zscore (getQ df "volatility"))) ∧
        List.lookup "volshock_z" out = some (Col.rs (zscore (getQ df "vol_shock"))) ∧
        List.lookup "liq_z" out = some (Col.rs (zscore (getQ df "liq_proxy"))) ∧
        List.lookup "stress_score" out = some (Col.rs
          (List.zipWith3 (weighted3 w_vol w_volshock w_liq)
            (zscore (getQ df "volatility")) (zscore (getQ df "vol_shock"))
            (zscore (getQ df "liq_proxy"))))) := by
  have hmiss : (["volatility", "vol_shock", "liq_proxy"].filter
        (fun c => (List.lookup c df).isNone) ≠ [])
      ↔ ((List.lookup "volatility" df).isNone ∨ (List.lookup "vol_shock" df).isNone
          ∨ (List.lookup "liq_proxy" df).isNone) := by
    cases h1 : (List.lookup "volatility" df).isNone <;>
    cases h2 : (List.lookup "vol_shock" df).isNone <;>
    cases h3 : (List.lookup "liq_proxy" df).isNone <;>
      simp [List.filter_cons, h1, h2, h3]
  have heqn : compute_stress_score df w_vol w_volshock w_liq
      = (if (["volatility", "vol_shock", "liq_proxy"].filter
            (fun c => (List.lookup c df).isNone)) ≠ [] then
          Except.error (["volatility", "vol_shock", "liq_proxy"].filter
            (fun c => (List.lookup c df).isNone))
        else Except.ok (setCol (setCol (setCol (setCol df
            "vol_z" (Col.rs (zscore (getQ df "volatility"))))
            "volshock_z" (Col.rs (zscore (getQ df "vol_shock"))))
            "liq_z" (Col.rs (zscore (getQ df "liq_proxy"))))
            "stress_score" (Col.rs (List.zipWith3 (weighted3 w_vol w_volshock w_liq)
              (zscore (getQ df "volatility")) (zscore (getQ df "vol_shock"))
              (zscore (getQ df "liq_proxy")))))) := rfl
  by_cases hemp : ["volatility", "vol_shock", "liq_proxy"].filter
      (fun c => (List.lookup c df).isNone) = []
  · have hres : compute_stress_score df w_vol w_volshock w_liq
        = Except.ok (setCol (setCol (setCol (setCol df
            "vol_z" (Col.rs (zscore (getQ df "volatility"))))
            "volshock_z" (Col.rs (zscore (getQ df "vol_shock"))))
            "liq_z" (Col.rs (zscore (getQ df "liq_proxy"))))
            "stress_score" (Col.rs (List.zipWith3 (weighted3 w_vol w_volshock w_liq)
              (zscore (getQ df "volatility")) (zscore (getQ df "vol_shock"))
              (zscore (getQ df "liq_proxy"))))) := by
      rw [heqn, if_neg (by simpa using hemp)]
    refine ⟨?_, ?_, ?_⟩
    · constructor
      · rintro ⟨m, hm⟩
        rw [hres] at hm
        exact nomatch hm
      · intro h
        exact absurd (hmiss.2 h) (by simpa using hemp)
    · intro m hm
      rw [hres] at hm
      exact nomatch hm
    · intro h
      refine ⟨_, hres, ?_, ?_, ?_, ?_⟩
      · rw [lookup_setCol_ne _ _ _ _ (by decide), lookup_setCol_ne _ _ _ _ (by decide),
          lookup_setCol_ne _ _ _ _ (by decide), lookup_setCol_self]
      · rw [lookup_setCol_ne _ _ _ _ (by decide), lookup_setCol_ne _ _ _ _ (by decide),
          lookup_setCol_self]
      · rw [lookup_setCol_ne _ _ _ _ (by decide), lookup_setCol_self]
      · rw [lookup_setCol_self]
  · have hres : compute_stress_score df w_vol w_volshock w_liq
        = Except.error (["volatility", "vol_shock", "liq_proxy"].filter
            (fun c => (List.lookup c df).isNone)) := by
      rw [heqn, if_pos hemp]
    refine ⟨?_, ?_, ?_⟩
    · exact ⟨fun _ => hmiss.1 hemp, fun _ => ⟨_, hres⟩⟩
    · intro m hm
      rw [hres] at hm
      exact (Except.error.inj hm).symm
    · intro h
      exact absurd (hmiss.1 hemp) h

/-- Concrete three-feature table used to witness C4. -/
def dfC4 : Df :=
  [("volatility", Col.qs [QVal.fin 1, QVal.fin 2]),
   ("vol_shock", Col.qs [QVal.fin 1, QVal.fin 1]),
   ("liq_proxy", Col.qs [QVal.fin 3, QVal.fin 4])]

theorem C4_witness :
    ¬ ((List.lookup "volatility" dfC4).isNone ∨ (List.lookup "vol_shock" dfC4).isNone
        ∨ (List.lookup "liq_proxy" dfC4).isNone) ∧
    ∃ out, compute_stress_score dfC4 (4/10) (4/10) (2/10) = Except.ok out ∧
      List.lookup "vol_z" out = some (Col.rs (zscore (getQ dfC4 "volatility"))) ∧
      List.lookup "volshock_z" out = some (Col.rs (zscore (getQ dfC4 "vol_shock"))) ∧
      List.lookup "liq_z" out = some (Col.rs (zscore (getQ dfC4 "liq_proxy"))) ∧
      List.lookup "stress_score" out = some (Col.rs
        (List.zipWith3 (weighted3 (4/10) (4/10) (2/10))
          (zscore (getQ dfC4 "volatility")) (zscore (getQ dfC4 "vol_shock"))
          (zscore (getQ dfC4 "liq_proxy")))) := by
  have hpre : ¬ ((List.lookup "volatility" dfC4).isNone
      ∨ (List.lookup "vol_shock" dfC4).isNone
      ∨ (List.lookup "liq_proxy" dfC4).isNone) := by
    simp [dfC4, List.lookup]
  exact ⟨hpre, (C4_missing_columns_iff_error dfC4 (4/10) (4/10) (2/10)).2.2 hpre⟩

/-! ## Analysis engine: `correlation_snapshot` (`src/analysis.py`) -/

/-- Is this cell a finite number? -/
def QVal.isFinite : QVal → Bool
  | QVal.fin _ => true
  | _ => false

lemma list_cauchy (l : List (ℚ × ℚ)) :
    ((l.map (fun p => p.1 * p.2)).sum) ^ 2
      ≤ (l.map (fun p => p.1 ^ 2)).sum * (l.map (fun p => p.2 ^ 2)).sum := by
  induction l with
  | nil => simp
  | cons p t ih =>
      obtain ⟨a, b⟩ := p
      simp only [List.map_cons, List.sum_cons]
      have hA : 0 ≤ (t.map (fun p => p.1 ^ 2)).sum := List.sum_nonneg (by
        intro x hx
        rcases List.mem_map.1 hx with ⟨q, _, rfl⟩
        positivity)
      have hB : 0 ≤ (t.map (fun p => p.2 ^ 2)).sum := List.sum_nonneg (by
        intro x hx
        rcases List.mem_map.1 hx with ⟨q, _, rfl⟩
        positivity)
      set S := (t.map (fun p => p.1 * p.2)).sum with hS
      set A := (t.map (fun p => p.1 ^ 2)).sum with hA2
      set B := (t.map (fun p => p.2 ^ 2)).sum with hB2
      have key : (2 * a * b * S) ^ 2 ≤ (a ^ 2 * B + A * b ^ 2) ^ 2 := by
        have h1 : 0 ≤ (a ^ 2 * B - A * b ^ 2) ^ 2 := sq_nonneg _
        have h2 : 0 ≤ (a * b) ^ 2 * (A * B - S ^ 2) := by
          apply mul_nonneg (sq_nonneg _)
          linarith
        nlinarith [h1, h2]
      have key2 : 2 * a * b * S ≤ a ^ 2 * B + A * b ^ 2 := by
        have hrhs : 0 ≤ a ^ 2 * B + A * b ^ 2 := by positivity
        nlinarith [key, hrhs]
      nlinarith [ih, key2]

/-- Pearson correlation of paired cells as `Series.corr` produces it: when
every paired cell is finite and both columns have a nonzero squared-deviation
sum, `Σ(x-x̄)(y-ȳ) / √(Σ(x-x̄)²·Σ(y-ȳ)²)`; otherwise NaN (zero variance gives
0/0, and a non-finite cell poisons the sums). -/
noncomputable def pearson (pairs : List (QVal × QVal)) : RVal :=
  if pairs.all (fun p => p.1.isFinite && p.2.isFinite) then
    let xs := finVals (pairs.map Prod.fst)
    let ys := finVals (pairs.map Prod.snd)
    let dxy := (List.zip xs ys).map (fun p => (p.1 - qMean xs) * (p.2 - qMean ys))
    let sxx := (xs.map (fun x => (x - qMean xs) ^ 2)).sum
    let syy := (ys.map (fun y => (y - qMean ys) ^ 2)).sum
    if sxx * syy = 0 then none
    else some ((dxy.sum : ℝ) / Real.sqrt ((sxx * syy : ℚ) : ℝ))
  else none

/-- `float(np.round(x, 4))`: rounding to 4 decimal places, NaN propagating
(np.round's half-to-even tie rule is modelled by nearest-integer rounding;
they agree except exactly at half-ulp ties). -/
noncomputable def round4 : RVal → RVal
  | some x => some (((round (x * 10000) : ℤ) : ℝ) / 10000)
  | none => none

/-- The forward-metric candidates inspected by `correlation_snapshot`. -/
def fwdCandidates : List String :=
  ["fwd_vol_20d", "fwd_ret_1d", "fwd_ret_5d", "fwd_ret_20d"]

/-- `df[[stress_col, c]].dropna()`: the (stress, metric) row pairs with both
cells non-missing. -/
def completePairs (df : Df) (col : List QVal) : List (QVal × QVal) :=
  (List.zip (getQ df "stress_score") col).filter
    (fun p => !(QVal.isNan p.1) && !(QVal.isNan p.2))

/-- Does a candidate metric qualify: present in the table with at least 30
complete pairs? -/
def qualifies (df : Df) (c : String) : Bool :=
  match List.lookup c df with
  | some (Col.qs col) => decide (30 ≤ (completePairs df col).length)
  | _ => false

/-- Model of `correlation_snapshot` from `src/analysis.py`: for each
candidate forward metric present in the table, drop rows with a missing
value in either column; with at least 30 paired observations left, emit one
row holding the metric name and the Pearson correlation with the stress
score rounded to 4 decimals; other metrics are omitted, and an empty table
(not an error) results when nothing qualifies. -/
noncomputable def correlation_snapshot (df : Df) : List (String × RVal) :=
  fwdCandidates.filterMap (fun c =>
    match List.lookup c df with
    | some (Col.qs col) =>
        if 30 ≤ (completePairs df col).length then
          some (c, round4 (pearson (completePairs df col)))
        else none
    | _ => none)

lemma finVals_length_of_all_finite (l : List QVal) (h : l.all QVal.isFinite = true) :
    (finVals l).length = l.length := by
  induction l with
  | nil => rfl
  | cons a t ih =>
      simp only [List.all_cons, Bool.and_eq_true] at h
      cases a <;> simp_all [finVals, QVal.isFinite]

lemma sum_sq_dev_nonneg (xs : List ℚ) (c : ℚ) :
    0 ≤ (xs.map (fun x => (x - c) ^ 2)).sum :=
  List.sum_nonneg (by
    intro x hx
    rcases List.mem_map.1 hx with ⟨q, _, rfl⟩
    positivity)

lemma pearson_bound (pairs : List (QVal × QVal)) :
    pearson pairs = none ∨ ∃ x : ℝ, pearson pairs = some x ∧ |x| ≤ 1 := by
  rw [pearson]
  by_cases hall : pairs.all (fun p => p.1.isFinite && p.2.isFinite) = true
  case neg =>
    rw [if_neg hall]
    exact Or.inl rfl
  rw [if_pos hall]
  simp only
  set xs := finVals (pairs.map Prod.fst) with hxs
  set ys := finVals (pairs.map Prod.snd) with hys
  set sxx := (xs.map (fun x => (x - qMean xs) ^ 2)).sum with hsxx
  set syy := (ys.map (fun y => (y - qMean ys) ^ 2)).sum with hsyy
  by_cases hz : sxx * syy = 0
  · rw [if_pos hz]
    exact Or.inl rfl
  · rw [if_neg hz]
    right
    refine ⟨_, rfl, ?_⟩
    have hallf : ∀ p ∈ pairs, p.1.isFinite = true ∧ p.2.isFinite = true := by
      intro p hp
      have h := List.all_eq_true.1 hall p hp
      simpa using h
    have hlen : xs.length = ys.length := by
      rw [hxs, hys, finVals_length_of_all_finite _ (List.all_eq_true.2 (by
          intro x hx
          rcases List.mem_map.1 hx with ⟨p, hp, rfl⟩
          exact (hallf p hp).1)),
        finVals_length_of_all_finite _ (List.all_eq_true.2 (by
          intro x hx
          rcases List.mem_map.1 hx with ⟨p, hp, rfl⟩
          exact (hallf p hp).2))]
      simp
    have hfst : (List.zip xs ys).map Prod.fst = xs :=
      List.map_fst_zip xs ys (le_of_eq hlen)
    have hsnd : (List.zip xs ys).map Prod.snd = ys :=
      List.map_snd_zip xs ys (le_of_eq hlen.symm)
    have h1 : ((List.zip xs ys).map (fun p => (p.1 - qMean xs) ^ 2)).sum = sxx := by
      rw [hsxx]
      rw [show (fun p : ℚ × ℚ => (p.1 - qMean xs) ^ 2)
          = (fun x : ℚ => (x - qMean xs) ^ 2) ∘ Prod.fst from rfl]
      rw [← List.map_map, hfst]
    have h2 : ((List.zip xs ys).map (fun p => (p.2 - qMean ys) ^ 2)).sum = syy := by
      rw [hsyy]
      rw [show (fun p : ℚ × ℚ => (p.2 - qMean ys) ^ 2)
          = (fun y : ℚ => (y - qMean ys) ^ 2) ∘ Prod.snd from rfl]
      rw [← List.map_map, hsnd]
    have key : (((List.zip xs ys).map
        (fun p => (p.1 - qMean xs) * (p.2 - qMean ys))).sum) ^ 2 ≤ sxx * syy := by
      have hc := list_cauchy ((List.zip xs ys).map
        (fun p => (p.1 - qMean xs, p.2 - qMean ys)))
      simp only [List.map_map, Function.comp_def] at hc
      rw [h1, h2] at hc
      exact hc
    have hsxxnn : (0 : ℚ) ≤ sxx := sum_sq_dev_nonneg xs (qMean xs)
    have hsyynn : (0 : ℚ) ≤ syy := sum_sq_dev_nonneg ys (qMean ys)
    have hprodpos : (0 : ℚ) < sxx * syy :=
      lt_of_le_of_ne (mul_nonneg hsxxnn hsyynn) (Ne.symm hz)
    have hsqrtpos : 0 < Real.sqrt ((sxx * syy : ℚ) : ℝ) :=
      Real.sqrt_pos.2 (by exact_mod_cast hprodpos)
    rw [abs_div, abs_of_nonneg (Real.sqrt_nonneg _), div_le_one hsqrtpos]
    calc |((((List.zip xs ys).map
          (fun p => (p.1 - qMean xs) * (p.2 - qMean ys))).sum : ℚ) : ℝ)|
        = Real.sqrt (((((List.zip xs ys).map
            (fun p => (p.1 - qMean xs) * (p.2 - qMean ys))).sum : ℚ) : ℝ) ^ 2) :=
          (Real.sqrt_sq_eq_abs _).symm
      _ ≤ Real.sqrt ((sxx * syy : ℚ) : ℝ) := Real.sqrt_le_sqrt (by
          exact_mod_cast key)

lemma round_mono_of_le {x y : ℝ} (h : x ≤ y) : round x ≤ round y := by
  rw [round_eq, round_eq]
  exact Int.floor_le_floor (by linarith)

lemma round4_bound (v : RVal) (h : v = none ∨ ∃ x : ℝ, v = some x ∧ |x| ≤ 1) :
    round4 v = none ∨ ∃ y : ℝ, round4 v = some y ∧ |y| ≤ 1 := by
  rcases h with rfl | ⟨x, rfl, hx⟩
  · exact Or.inl rfl
  · right
    refine ⟨_, rfl, ?_⟩
    rw [abs_le] at hx ⊢
    have hup : round (x * 10000) ≤ 10000 := by
      have := round_mono_of_le (show x * 10000 ≤ 10000 by nlinarith [hx.2])
      simpa using this
    have hdn : (-10000 : ℤ) ≤ round (x * 10000) := by
      have h1 := round_mono_of_le (show (-10000 : ℝ) ≤ x * 10000 by nlinarith [hx.1])
      have h0 : round ((-10000 : ℝ)) = (-10000 : ℤ) := by
        have h2 := round_intCast (α := ℝ) (-10000)
        simpa using h2
      rw [h0] at h1
      exact h1
    constructor
    · rw [neg_le, ← neg_div]
      rw [div_le_iff (by norm_num)]
      push_cast
      have : ((-10000 : ℤ) : ℝ) ≤ (round (x * 10000) : ℤ) := by exact_mod_cast hdn
      push_cast at this
      linarith
    · rw [div_le_iff (by norm_num)]
      have : ((round (x * 10000) : ℤ) : ℝ) ≤ ((10000 : ℤ) : ℝ) := by exact_mod_cast hup
      push_cast at this
      linarith

lemma snapshot_map_fst (df : Df) (cs : List String) :
    (cs.filterMap (fun c =>
      match List.lookup c df with
      | some (Col.qs col) =>
          if 30 ≤ (completePairs df col).length then
            some (c, round4 (pearson (completePairs df col)))
          else none
      | _ => none)).map Prod.fst = cs.filter (qualifies df) := by
  induction cs with
  | nil => rfl
  | cons c t ih =>
      rw [List.filterMap_cons, List.filter_cons]
      cases hl : List.lookup c df with
      | none =>
          have hq : qualifies df c = false := by simp [qualifies, hl]
          simp only [hl, hq, Bool.false_eq_true, if_false, ih]
      | some col =>
          cases col with
          | qs l =>
              by_cases h30 : 30 ≤ (completePairs df l).length
              · have hq : qualifies df c = true := by simp [qualifies, hl, h30]
                simp only [hl, if_pos h30, hq, if_true, List.map_cons, ih]
              · have hq : qualifies df c = false := by simp [qualifies, hl, h30]
                simp only [hl, if_neg h30, hq, Bool.false_eq_true, if_false, ih]
          | rs l =>
              have hq : qualifies df c = false := by simp [qualifies, hl]
              simp only [hl, hq, Bool.false_eq_true, if_false, ih]

/-- C8 (amended): `correlation_snapshot` emits exactly one row per
qualifying metric — a candidate column present in the table with at least 30
complete (stress, metric) pairs — in candidate order, omitting all others,
and returns an empty table (never an error) when nothing qualifies; each
emitted value is the Pearson correlation rounded to 4 decimals, and it
satisfies |corr| ≤ 1 whenever it is a number — the value is NaN when the
paired columns are degenerate (zero variance or non-finite values). -/
theorem C8_correlation_snapshot_shape (df : Df) :
    ((correlation_snapshot df).map Prod.fst = fwdCandidates.filter (qualifies df)) ∧
    (∀ row ∈ correlation_snapshot df,
      ∃ col, List.lookup row.1 df = some (Col.qs col) ∧
        30 ≤ (completePairs df col).length ∧
        row.2 = round4 (pearson (completePairs df col)) ∧
        (row.2 = none ∨ ∃ x : ℝ, row.2 = some x ∧ |x| ≤ 1)) ∧
    (fwdCandidates.filter (qualifies df) = [] → correlation_snapshot df = []) := by
  refine ⟨snapshot_map_fst df fwdCandidates, ?_, ?_⟩
  · intro row hrow
    rw [correlation_snapshot] at hrow
    rcases List.mem_filterMap.1 hrow with ⟨c, hc, hfc⟩
    cases hl : List.lookup c df with
    | none =>
        simp only [hl] at hfc
        exact nomatch hfc
    | some col =>
        cases col with
        | rs l =>
            simp only [hl] at hfc
            exact nomatch hfc
        | qs l =>
            simp only [hl] at hfc
            by_cases h30 : 30 ≤ (completePairs df l).length
            · rw [if_pos h30] at hfc
              have hrw : row = (c, round4 (pearson (completePairs df l))) :=
                (Option.some_inj.1 hfc).symm
              subst hrw
              exact ⟨l, hl, h30, rfl, round4_bound _ (pearson_bound _)⟩
            · rw [if_neg h30] at hfc
              exact nomatch hfc
  · intro hemp
    have h := snapshot_map_fst df fwdCandidates
    rw [hemp] at h
    rwa [List.map_eq_nil] at h

lemma zip_replicate_same {α β : Type} (n : ℕ) (a : α) (b : β) :
    List.zip (List.replicate n a) (List.replicate n b) = List.replicate n (a, b) := by
  induction n with
  | zero => rfl
  | succ k ih => simp [List.replicate_succ, ih]

lemma filter_replicate_pos {α : Type} (p : α → Bool) (n : ℕ) (x : α) (h : p x = true) :
    (List.replicate n x).filter p = List.replicate n x := by
  induction n with
  | zero => rfl
  | succ k ih => simp [List.replicate_succ, List.filter_cons, h, ih]

lemma all_replicate_pos {α : Type} (p : α → Bool) (n : ℕ) (x : α) (h : p x = true) :
    (List.replicate n x).all p = true := by
  induction n with
  | zero => rfl
  | succ k ih => simp [List.replicate_succ, h, ih]

lemma finVals_replicate_fin (n : ℕ) (q : ℚ) :
    finVals (List.replicate n (QVal.fin q)) = List.replicate n q := by
  induction n with
  | zero => rfl
  | succ k ih => simp [List.replicate_succ, finVals] at ih ⊢; exact ih

/-- Thirty rows with a constant stress score and a constant forward metric:
`fwd_ret_1d` qualifies (30 complete pairs) but its Pearson correlation is
NaN (zero variance). -/
def dfC8 : Df :=
  [("stress_score", Col.qs (List.replicate 30 (QVal.fin 1))),
   ("fwd_ret_1d", Col.qs (List.replicate 30 (QVal.fin 0)))]

lemma completePairs_dfC8 :
    completePairs dfC8 (List.replicate 30 (QVal.fin 0))
      = List.replicate 30 (QVal.fin 1, QVal.fin 0) := by
  rw [completePairs]
  have hst : getQ dfC8 "stress_score" = List.replicate 30 (QVal.fin 1) := by
    simp [dfC8, getQ, List.lookup]
  rw [hst, zip_replicate_same, filter_replicate_pos]
  rfl

lemma pearson_dfC8 : pearson (List.replicate 30 (QVal.fin 1, QVal.fin 0)) = none := by
  rw [pearson, if_pos (all_replicate_pos _ _ _ rfl)]
  simp only [List.map_replicate]
  rw [finVals_replicate_fin, finVals_replicate_fin]
  rw [if_pos]
  have hmean0 : qMean (List.replicate 30 (0 : ℚ)) = 0 := by
    simp [qMean, List.sum_replicate]
  rw [hmean0]
  have hsyy : ((List.replicate 30 (0 : ℚ)).map (fun y => (y - 0) ^ 2)).sum = 0 := by
    simp [List.map_replicate, List.sum_replicate]
  rw [hsyy, mul_zero]

lemma snapshot_dfC8 : correlation_snapshot dfC8 = [("fwd_ret_1d", (none : RVal))] := by
  have l1 : List.lookup "fwd_vol_20d" dfC8 = none := by simp [dfC8, List.lookup]
  have l2 : List.lookup "fwd_ret_1d" dfC8
      = some (Col.qs (List.replicate 30 (QVal.fin 0))) := by
    simp [dfC8, List.lookup]
  have l3 : List.lookup "fwd_ret_5d" dfC8 = none := by simp [dfC8, List.lookup]
  have l4 : List.lookup "fwd_ret_20d" dfC8 = none := by simp [dfC8, List.lookup]
  rw [correlation_snapshot, fwdCandidates]
  rw [List.filterMap_cons, List.filterMap_cons, List.filterMap_cons,
    List.filterMap_cons, List.filterMap_nil]
  simp only [l1, l2, l3, l4]
  rw [if_pos (by
    rw [completePairs_dfC8]
    simp)]
  rw [completePairs_dfC8, pearson_dfC8]
  rfl

/-- C8 counterexample: on 30 rows whose `fwd_ret_1d` column is constant, the
metric qualifies (30 complete pairs) and `correlation_snapshot` includes its
row, but the stored correlation is NaN — pandas' zero-variance 0/0 — so the
claimed `|corr| ≤ 1` fails for that included row. -/
theorem C8_counterexample :
    ∃ row ∈ correlation_snapshot dfC8, ¬ ∃ x : ℝ, row.2 = some x ∧ |x| ≤ 1 := by
  refine ⟨("fwd_ret_1d", (none : RVal)), ?_, ?_⟩
  · rw [snapshot_dfC8]
    exact List.mem_singleton.2 rfl
  · rintro ⟨x, hx, _⟩
    exact nomatch hx

theorem C8_witness :
    ("fwd_ret_1d", (none : RVal)) ∈ correlation_snapshot dfC8 ∧
    ∃ col, List.lookup "fwd_ret_1d" dfC8 = some (Col.qs col) ∧
      30 ≤ (completePairs dfC8 col).length ∧
      (none : RVal) = round4 (pearson (completePairs dfC8 col)) ∧
      ((none : RVal) = none ∨ ∃ x : ℝ, (none : RVal) = some x ∧ |x| ≤ 1) := by
  have hmem : ("fwd_ret_1d", (none : RVal)) ∈ correlation_snapshot dfC8 := by
    rw [snapshot_dfC8]
    exact List.mem_singleton.2 rfl
  exact ⟨hmem, (C8_correlation_snapshot_shape dfC8).2.1 _ hmem⟩
